import Mathlib

/-!
Verification of the clean-data wizard's core state management: the
undo/redo history engine over cleaning snapshots
(`src/components/DataCleaningStep.tsx`), the filter engine and the
pagination view (`src/components/DashboardStep.tsx`).

The embedding is shallow: JavaScript objects `{ [key: string]: string | number }`
become association lists from `String` to `Scalar`; a missing key yields
`none` (JavaScript `undefined`).  Array methods are translated one by one:
`filter((_, i) => i !== index)` becomes `filterIdxNe`, `[...new Set(xs)]`
becomes `jsSetDedup` (first occurrence kept, insertion order), default
`Array.prototype.sort()` becomes a stable sort under `jsSortLe`
(comparison of string representations, `undefined` last), `slice`
becomes `jsSlice`.
-/

/-- A scalar cell value of the tabular data model: `string | number`
(numbers modelled as integers). -/
inductive Scalar
  | str (s : String)
  | num (n : Int)
deriving DecidableEq

/-- A data record (`DataRecord` in `src/types.ts`): a mapping from column
name to scalar value, as an association list. -/
abbrev DataRecord := List (String × Scalar)

/-- The value of a record at a key: `row[key]`, `none` when the key is
absent (JavaScript `undefined`). -/
abbrev Value := Option Scalar

/-- `row[key]` lookup. -/
def getV (row : DataRecord) (key : String) : Value :=
  row.lookup key

/-- `Object.keys(row)`. -/
def recordKeys (row : DataRecord) : List String :=
  row.map Prod.fst

/-- `RemovedRow` from `DataCleaningStep.tsx`:
`{ originalRow: DataRecord; reason: string }`. -/
structure RemovedRow where
  originalRow : DataRecord
  reason : String
deriving DecidableEq

/-- One history snapshot: `{ cleanedData, removedRows }`. -/
structure CleaningState where
  cleanedData : List DataRecord
  removedRows : List RemovedRow
deriving DecidableEq

/-- `DataHistory` from `DataCleaningStep.tsx`: the past/present/future
triple. -/
structure DataHistory where
  past : List CleaningState
  present : CleaningState
  future : List CleaningState
deriving DecidableEq

/-- `arr.filter((_, i) => i !== index)` specialised to an enumeration
counter starting at `n`: keeps the elements whose running index differs
from `idx`. -/
def filterIdxNeAux (idx : Int) : List α → Nat → List α
  | [], _ => []
  | a :: l, n =>
    if (n : Int) ≠ idx then a :: filterIdxNeAux idx l (n + 1)
    else filterIdxNeAux idx l (n + 1)

/-- `arr.filter((_, i) => i !== index)` (JavaScript indices start at 0;
the index argument may be any number, including a negative one). -/
def filterIdxNe (l : List α) (idx : Int) : List α :=
  filterIdxNeAux idx l 0

/-- `handleRestoreRow` from `DataCleaningStep.tsx` (lines 84-97): append
the restored row's `originalRow` to `cleanedData`, drop the entry whose
position equals `index` from `removedRows`, push the old present onto
`past` and clear `future`. -/
def handleRestoreRow (h : DataHistory) (rowToRestore : RemovedRow) (index : Int) :
    DataHistory :=
  { past := h.past ++ [h.present]
    present :=
      { cleanedData := h.present.cleanedData ++ [rowToRestore.originalRow]
        removedRows := filterIdxNe h.present.removedRows index }
    future := [] }

/-- `handleUndo` from `DataCleaningStep.tsx` (lines 99-111): no-op on
empty `past`; otherwise pop the last past state into `present` and
prepend the old present to `future`. -/
def handleUndo (h : DataHistory) : DataHistory :=
  match h.past.getLast? with
  | none => h
  | some previous =>
    { past := h.past.dropLast
      present := previous
      future := h.present :: h.future }

/-- `handleRedo` from `DataCleaningStep.tsx` (lines 113-125): no-op on
empty `future`; otherwise shift the first future state into `present`
and push the old present onto `past`. -/
def handleRedo (h : DataHistory) : DataHistory :=
  match h.future with
  | [] => h
  | next :: newFuture =>
    { past := h.past ++ [h.present]
      present := next
      future := newFuture }

/-- The history installed when a cleaning run completes
(`setDataHistory \x7b past: [], present: ..., future: [] \x7d` in
`handleCleanData`). -/
def initializeHistory (s : CleaningState) : DataHistory :=
  { past := [], present := s, future := [] }

/-- A user action on the history engine. -/
inductive EditOp
  | restore (r : RemovedRow) (idx : Int)
  | undo
  | redo

/-- Dispatch one action to its handler. -/
def applyOp (h : DataHistory) : EditOp → DataHistory
  | .restore r idx => handleRestoreRow h r idx
  | .undo => handleUndo h
  | .redo => handleRedo h

/-- Apply a sequence of actions, left to right. -/
def applyOps (h : DataHistory) (ops : List EditOp) : DataHistory :=
  ops.foldl applyOp h

/-- An action is in bounds for a state: restores must name an index
within the current `removedRows`; undo and redo are always allowed. -/
def validOp (h : DataHistory) : EditOp → Bool
  | .restore _ idx =>
    decide (0 ≤ idx) && decide (idx < (h.present.removedRows.length : Int))
  | .undo => true
  | .redo => true

/-- Every action of the sequence is in bounds at the state it is applied
to. -/
def validOps : DataHistory → List EditOp → Bool
  | _, [] => true
  | h, op :: rest => validOp h op && validOps (applyOp h op) rest

/-- Total number of rows a snapshot accounts for. -/
def totalRows (s : CleaningState) : Nat :=
  s.cleanedData.length + s.removedRows.length

/-- A filter selection (`Filters` in `src/types.ts`): per-column list of
selected values. -/
abbrev Filters := List (String × List Value)

/-- `filters[key] ?? []`: the selection for a column, empty when the
column is absent from the mapping. -/
def getFilter (F : Filters) (key : String) : List Value :=
  (F.lookup key).getD []

/-- `Object.keys(filters).filter(key => filters[key].length > 0)` from
the filter-recomputation effect in `DashboardStep.tsx` (line 94). -/
def activeFilters (F : Filters) : List String :=
  (F.map Prod.fst).filter (fun key => !(getFilter F key).isEmpty)

/-- `activeFilters.every(key => filters[key].includes(row[key]))`
(lines 103-105). -/
def rowMatches (F : Filters) (row : DataRecord) : Bool :=
  (activeFilters F).all (fun key => (getFilter F key).contains (getV row key))

/-- The filter-recomputation effect (`DashboardStep.tsx` lines 93-109):
with no active filter the base dataset is used unchanged, otherwise
`cleanedData.filter(row => ...)`. -/
def applyFilters (F : Filters) (D : List DataRecord) : List DataRecord :=
  if (activeFilters F).isEmpty then D else D.filter (rowMatches F)

/-- The spec's retention predicate, written from the specification text:
a row is kept when for every column `c` whose selection set `F[c]` is
non-empty, `row[c]` is a member of `F[c]`. -/
def specRowMatches (F : Filters) (row : DataRecord) : Bool :=
  (F.map Prod.fst).all fun c =>
    (getFilter F c).isEmpty || (getFilter F c).contains (getV row c)

/-- `typeof v === 'string'` on a looked-up value. -/
def isStringVal : Value → Bool
  | some (.str _) => true
  | _ => false

/-- Deduplication pass behind `new Set(xs)`: drop every element already
seen, keeping first occurrences in insertion order. -/
def jsSetDedupAux (seen : List Value) : List Value → List Value
  | [] => []
  | x :: xs =>
    if x ∈ seen then jsSetDedupAux seen xs
    else x :: jsSetDedupAux (x :: seen) xs

/-- `[...new Set(xs)]`: remove duplicates keeping the first occurrence
of each value, in insertion order. -/
def jsSetDedup (l : List Value) : List Value :=
  jsSetDedupAux [] l

/-- The values of one column across the dataset:
`cleanedData.map(row => row[col])`. -/
def columnValues (D : List DataRecord) (col : String) : List Value :=
  D.map fun row => getV row col

/-- `new Set(cleanedData.map(row => row[col]))` as a duplicate-free
list. -/
def distinctVals (D : List DataRecord) (col : String) : List Value :=
  jsSetDedup (columnValues D col)

/-- `categoricalColumns` from `DashboardStep.tsx` (lines 73-82): the
keys of the first record whose first value is a string and whose set of
distinct values has size in (1, 50]. -/
def categoricalColumns (D : List DataRecord) : List String :=
  match D with
  | [] => []
  | first :: _ =>
    (recordKeys first).filter fun header =>
      isStringVal (getV first header)
        && decide (1 < (distinctVals D header).length)
        && decide ((distinctVals D header).length ≤ 50)

/-- `String(v)` on a scalar. -/
def scalarToString : Scalar → String
  | .str s => s
  | .num n => toString n

/-- Lexicographic comparison of character sequences by character code,
the comparison JavaScript applies to strings. -/
def charListLe : List Char → List Char → Bool
  | [], _ => true
  | _ :: _, [] => false
  | a :: as, b :: bs =>
    if a.toNat < b.toNat then true
    else if b.toNat < a.toNat then false
    else charListLe as bs

/-- `a <= b` on JavaScript strings (code-unit lexicographic order). -/
def jsStrLe (a b : String) : Bool :=
  charListLe a.data b.data

/-- The ordering realised by default `Array.prototype.sort()`:
`undefined` sorts after everything, defined elements compare by their
string representations. -/
def jsSortLe : Value → Value → Bool
  | none, none => true
  | none, some _ => false
  | some _, none => true
  | some a, some b => jsStrLe (scalarToString a) (scalarToString b)

/-- `jsSortLe` as a decidable relation, for sorting. -/
abbrev jsSortRel (a b : Value) : Prop := jsSortLe a b = true

/-- `uniqueFilterValues` for one column (`DashboardStep.tsx` lines
84-91): `[...new Set(cleanedData.map(row => row[col]))].sort()`.
Default `sort()` is a stable sort under the comparison `jsSortLe`;
`List.insertionSort` realises exactly that (stable, sorted under the
same total preorder). -/
def uniqueFilterValues (D : List DataRecord) (col : String) : List Value :=
  (distinctVals D col).insertionSort jsSortRel

/-- `sequence.slice(start, stop)` for non-negative bounds. -/
def jsSlice (l : List α) (start stop : Nat) : List α :=
  (l.drop start).take (stop - start)

/-- `rowsPerPage = 10` (`DashboardStep.tsx` line 68). -/
def rowsPerPage : Nat := 10

/-- `filteredData.slice(page * rowsPerPage, (page + 1) * rowsPerPage)`
(line 130). -/
def paginatedData (l : List α) (page : Nat) : List α :=
  jsSlice l (page * rowsPerPage) ((page + 1) * rowsPerPage)

/-- `Math.ceil(filteredData.length / rowsPerPage)` (line 131). -/
def pageCount (l : List α) : Nat :=
  (l.length + rowsPerPage - 1) / rowsPerPage

/-- The Next button: `setPage(p => Math.min(pageCount - 1, p + 1))`
(line 172). -/
def nextPage (l : List α) (p : Nat) : Nat :=
  min (pageCount l - 1) (p + 1)

/-- The Previous button: `setPage(p => Math.max(0, p - 1))` (line 170). -/
def prevPage (p : Nat) : Nat :=
  max 0 (p - 1)

/-- The conservation invariant of the history engine: every snapshot
held anywhere in the triple accounts for exactly `N` rows. -/
def histInv (N : Nat) (h : DataHistory) : Prop :=
  (∀ s ∈ h.past, totalRows s = N) ∧
    totalRows h.present = N ∧
    ∀ s ∈ h.future, totalRows s = N

/-- A sample row. -/
def exRowA : DataRecord := [("id", Scalar.num 1), ("val", Scalar.str "a")]

/-- A sample removed row. -/
def exRemoved : RemovedRow :=
  ⟨[("id", Scalar.num 2), ("val", Scalar.str "")], "missing value in val"⟩

/-- The empty snapshot. -/
def exState0 : CleaningState := ⟨[], []⟩

/-- A non-empty snapshot, distinct from `exState0`. -/
def exState1 : CleaningState := ⟨[exRowA], []⟩

/-- A sample post-cleaning snapshot: one kept row, one removed row. -/
def exInit : CleaningState := ⟨[exRowA], [exRemoved]⟩

/-- A sample fresh history over `exInit`. -/
def exHist : DataHistory := initializeHistory exInit

/-- A sample action sequence: restore the removed row, undo, redo, undo. -/
def exOps : List EditOp := [.restore exRemoved 0, .undo, .redo, .undo]

/-- A filter selection whose only entry has an empty selection set. -/
def exFilterEmpty : Filters := [("val", [])]

/-- A dataset with one column `c` holding a string and two numbers. -/
def mixData : List DataRecord :=
  [[("c", Scalar.str "a")], [("c", Scalar.num 10)], [("c", Scalar.num 2)]]


/-! ## Properties of `filterIdxNe` -/

theorem filterIdxNeAux_of_out_of_range {idx : Int} :
    ∀ (l : List α) (n : Nat), (idx < n ∨ (n + l.length : Int) ≤ idx) →
      filterIdxNeAux idx l n = l := by
  intro l
  induction l with
  | nil => intro n _; rfl
  | cons a t ih =>
    intro n hn
    have hne : (n : Int) ≠ idx := by
      simp only [List.length_cons] at hn
      omega
    rw [filterIdxNeAux, if_pos hne, ih (n + 1)]
    simp only [List.length_cons] at hn
    push_cast
    omega

theorem filterIdxNeAux_eraseIdx :
    ∀ (l : List α) (i n : Nat), i < l.length →
      filterIdxNeAux ((n + i : Nat) : Int) l n = l.eraseIdx i := by
  intro l
  induction l with
  | nil => intro i n h; simp at h
  | cons a t ih =>
    intro i n h
    cases i with
    | zero =>
      rw [filterIdxNeAux]
      rw [if_neg (by push_cast; omega)]
      rw [filterIdxNeAux_of_out_of_range t (n + 1) (by push_cast; omega)]
      rfl
    | succ j =>
      rw [filterIdxNeAux]
      rw [if_pos (by push_cast; omega)]
      have := ih j (n + 1) (by simpa using Nat.lt_of_succ_lt_succ h)
      rw [show ((n + (j + 1) : Nat) : Int) = (((n + 1) + j : Nat) : Int) by push_cast; omega]
      rw [this]
      rfl

theorem filterIdxNe_natCast_eraseIdx (l : List α) (i : Nat) (h : i < l.length) :
    filterIdxNe l (i : Int) = l.eraseIdx i := by
  have := filterIdxNeAux_eraseIdx l i 0 h
  simpa [filterIdxNe] using this

theorem filterIdxNe_of_out_of_range (l : List α) (idx : Int)
    (h : idx < 0 ∨ (l.length : Int) ≤ idx) : filterIdxNe l idx = l := by
  apply filterIdxNeAux_of_out_of_range
  simpa using h

/-! ## Association-list lookup -/

theorem mem_keys_of_lookup_eq_some {β : Type} {l : List (String × β)} {k : String} {v : β}
    (h : List.lookup k l = some v) : k ∈ l.map Prod.fst := by
  induction l with
  | nil => simp [List.lookup] at h
  | cons p t ih =>
    obtain ⟨k', v'⟩ := p
    by_cases hk : k = k'
    · simp [hk]
    · have hbeq : (k == k') = false := by simpa using hk
      rw [List.lookup, hbeq] at h
      simp only [List.map_cons, List.mem_cons]
      exact Or.inr (ih h)

/-! ## Deduplication -/

theorem mem_jsSetDedupAux {a : Value} :
    ∀ (l seen : List Value), a ∈ jsSetDedupAux seen l ↔ a ∈ l ∧ a ∉ seen := by
  intro l
  induction l with
  | nil => intro seen; simp [jsSetDedupAux]
  | cons x xs ih =>
    intro seen
    rw [jsSetDedupAux]
    split
    · rename_i hx
      rw [ih]
      constructor
      · rintro ⟨h1, h2⟩; exact ⟨List.mem_cons_of_mem _ h1, h2⟩
      · rintro ⟨h1, h2⟩
        rcases List.mem_cons.mp h1 with rfl | h1
        · exact absurd hx h2
        · exact ⟨h1, h2⟩
    · rename_i hx
      simp only [List.mem_cons, ih, List.mem_cons, not_or]
      constructor
      · rintro (rfl | ⟨h1, h2, h3⟩)
        · exact ⟨Or.inl rfl, hx⟩
        · exact ⟨Or.inr h1, h3⟩
      · rintro ⟨rfl | h1, h2⟩
        · exact Or.inl rfl
        · by_cases hax : a = x
          · exact Or.inl hax
          · exact Or.inr ⟨h1, hax, h2⟩

theorem mem_jsSetDedup {a : Value} {l : List Value} :
    a ∈ jsSetDedup l ↔ a ∈ l := by
  rw [jsSetDedup, mem_jsSetDedupAux]
  simp

theorem nodup_jsSetDedupAux :
    ∀ (l seen : List Value), (jsSetDedupAux seen l).Nodup := by
  intro l
  induction l with
  | nil => intro seen; simp [jsSetDedupAux]
  | cons x xs ih =>
    intro seen
    rw [jsSetDedupAux]
    split
    · exact ih seen
    · refine List.nodup_cons.mpr ⟨?_, ih (x :: seen)⟩
      intro hmem
      exact ((mem_jsSetDedupAux xs (x :: seen)).mp hmem).2 (List.mem_cons_self x seen)

theorem nodup_jsSetDedup (l : List Value) : (jsSetDedup l).Nodup :=
  nodup_jsSetDedupAux l []

/-! ## The JavaScript default sort order -/

theorem charListLe_cons_iff {x y : Char} {xs ys : List Char} :
    charListLe (x :: xs) (y :: ys) = true ↔
      x.toNat < y.toNat ∨ (x.toNat = y.toNat ∧ charListLe xs ys = true) := by
  rw [charListLe]
  split_ifs with h1 h2
  · simp [h1]
  · constructor
    · intro h; cases h
    · rintro (h | ⟨h, _⟩) <;> omega
  · constructor
    · intro h; exact Or.inr ⟨by omega, h⟩
    · rintro (h | ⟨_, h⟩)
      · omega
      · exact h

theorem charListLe_trans :
    ∀ (a b c : List Char), charListLe a b = true → charListLe b c = true →
      charListLe a c = true := by
  intro a
  induction a with
  | nil => intro b c _ _; rfl
  | cons x xs ih =>
    intro b c hab hbc
    cases b with
    | nil => simp [charListLe] at hab
    | cons y ys =>
      cases c with
      | nil => simp [charListLe] at hbc
      | cons z zs =>
        rw [charListLe_cons_iff] at hab hbc ⊢
        rcases hab with hab | ⟨hab, hab'⟩ <;> rcases hbc with hbc | ⟨hbc, hbc'⟩
        · exact Or.inl (by omega)
        · exact Or.inl (by omega)
        · exact Or.inl (by omega)
        · exact Or.inr ⟨by omega, ih ys zs hab' hbc'⟩

theorem charListLe_total :
    ∀ (a b : List Char), charListLe a b = true ∨ charListLe b a = true := by
  intro a
  induction a with
  | nil => intro b; exact Or.inl rfl
  | cons x xs ih =>
    intro b
    cases b with
    | nil => exact Or.inr rfl
    | cons y ys =>
      rcases Nat.lt_trichotomy x.toNat y.toNat with h | h | h
      · exact Or.inl (charListLe_cons_iff.mpr (Or.inl h))
      · rcases ih ys with h' | h'
        · exact Or.inl (charListLe_cons_iff.mpr (Or.inr ⟨h, h'⟩))
        · exact Or.inr (charListLe_cons_iff.mpr (Or.inr ⟨h.symm, h'⟩))
      · exact Or.inr (charListLe_cons_iff.mpr (Or.inl h))

theorem jsSortLe_trans :
    ∀ (a b c : Value), jsSortLe a b = true → jsSortLe b c = true →
      jsSortLe a c = true := by
  intro a b c hab hbc
  cases a <;> cases b <;> cases c <;>
    simp only [jsSortLe] at hab hbc ⊢ <;>
    first
      | rfl
      | exact charListLe_trans _ _ _ hab hbc
      | simp at hab
      | simp at hbc

theorem jsSortLe_total :
    ∀ (a b : Value), jsSortLe a b = true ∨ jsSortLe b a = true := by
  intro a b
  cases a <;> cases b <;>
    first
      | exact Or.inl rfl
      | exact Or.inr rfl
      | exact charListLe_total _ _

/-! ## History-engine helper lemmas -/

theorem handleUndo_of_past_nil {h : DataHistory} (hp : h.past = []) :
    handleUndo h = h := by
  simp [handleUndo, hp]

theorem handleRedo_of_future_nil {h : DataHistory} (hf : h.future = []) :
    handleRedo h = h := by
  simp [handleRedo, hf]

theorem handleUndo_concat (p : List CleaningState) (x c : CleaningState)
    (f : List CleaningState) :
    handleUndo ⟨p ++ [x], c, f⟩ = ⟨p, x, c :: f⟩ := by
  unfold handleUndo
  simp

theorem handleRedo_cons (p : List CleaningState) (c x : CleaningState)
    (f : List CleaningState) :
    handleRedo ⟨p, c, x :: f⟩ = ⟨p ++ [c], x, f⟩ :=
  rfl

/-! ## Conservation invariant -/

theorem histInv_applyOp {N : Nat} {h : DataHistory} {op : EditOp}
    (hInv : histInv N h) (hval : validOp h op = true) :
    histInv N (applyOp h op) := by
  obtain ⟨hpast, hpres, hfut⟩ := hInv
  cases op with
  | restore r idx =>
    simp only [validOp, Bool.and_eq_true, decide_eq_true_eq] at hval
    obtain ⟨h0, hlen⟩ := hval
    refine ⟨?_, ?_, by simp [applyOp, handleRestoreRow]⟩
    · intro s hs
      simp only [applyOp, handleRestoreRow, List.mem_append, List.mem_singleton] at hs
      rcases hs with hs | rfl
      · exact hpast s hs
      · exact hpres
    · have hlt : idx.toNat < h.present.removedRows.length := by omega
      have hcast : ((idx.toNat : Nat) : Int) = idx := Int.toNat_of_nonneg h0
      show totalRows (handleRestoreRow h r idx).present = N
      unfold handleRestoreRow totalRows
      rw [← hcast, filterIdxNe_natCast_eraseIdx _ _ hlt,
        List.length_eraseIdx_of_lt hlt]
      simp only [List.length_append, List.length_cons, List.length_nil]
      unfold totalRows at hpres
      omega
  | undo =>
    rcases List.eq_nil_or_concat h.past with hp | ⟨q, x, hq⟩
    · rw [applyOp, handleUndo_of_past_nil hp]
      exact ⟨hpast, hpres, hfut⟩
    · obtain ⟨p, c, f⟩ := h
      simp only at hq
      subst hq
      rw [applyOp, List.concat_eq_append, handleUndo_concat]
      simp only at hpast hpres hfut
      refine ⟨?_, ?_, ?_⟩
      · intro s hs
        exact hpast s (by simp [hs])
      · exact hpast x (by simp)
      · intro s hs
        rcases List.mem_cons.mp hs with rfl | hs
        · exact hpres
        · exact hfut s hs
  | redo =>
    obtain ⟨p, c, f⟩ := h
    cases f with
    | nil =>
      rw [applyOp, handleRedo_of_future_nil rfl]
      exact ⟨hpast, hpres, hfut⟩
    | cons x f' =>
      rw [applyOp, handleRedo_cons]
      simp only at hpast hpres hfut
      refine ⟨?_, ?_, ?_⟩
      · intro s hs
        rcases List.mem_append.mp hs with hs | hs
        · exact hpast s hs
        · rw [List.mem_singleton.mp hs]; exact hpres
      · exact hfut x (by simp)
      · intro s hs
        exact hfut s (by simp [hs])

theorem histInv_applyOps {N : Nat} :
    ∀ (ops : List EditOp) (h : DataHistory),
      histInv N h → validOps h ops = true → histInv N (applyOps h ops) := by
  intro ops
  induction ops with
  | nil => intro h hI _; simpa [applyOps] using hI
  | cons op rest ih =>
    intro h hI hv
    rw [validOps, Bool.and_eq_true] at hv
    have hstep := histInv_applyOp hI hv.1
    have := ih (applyOp h op) hstep hv.2
    simpa [applyOps] using this

/-! ## Filter-engine helper lemmas -/

theorem rowMatches_of_no_active {F : Filters} (hemp : activeFilters F = [])
    (row : DataRecord) : rowMatches F row = true := by
  rw [rowMatches, hemp]
  rfl

theorem applyFilters_eq_filter (F : Filters) (D : List DataRecord) :
    applyFilters F D = D.filter (rowMatches F) := by
  unfold applyFilters
  split
  · rename_i hemp
    rw [List.isEmpty_iff] at hemp
    exact (List.filter_eq_self.mpr fun a _ => rowMatches_of_no_active hemp a).symm
  · rfl

theorem rowMatches_eq_specRowMatches (F : Filters) (row : DataRecord) :
    rowMatches F row = specRowMatches F row := by
  rw [rowMatches, specRowMatches, activeFilters, List.all_filter]
  congr 1
  funext c
  cases hF : (getFilter F c).isEmpty <;> simp [hF]

/-! ## Claims -/

/-- C1: restoring the removed row at a valid index produces a new
present whose `cleanedData` is the old present's `cleanedData` with the
restored row's `originalRow` appended at the end, and whose
`removedRows` is the old present's `removedRows` with the entry at that
index removed; the old present is pushed onto `past` and `future` is
cleared, so a subsequent redo is a no-op (for any starting history,
including one reached by undos). -/
theorem restore_row_spec (h : DataHistory) (i : Nat)
    (hi : i < h.present.removedRows.length) :
    handleRestoreRow h (h.present.removedRows.get ⟨i, hi⟩) (i : Int) =
      ⟨h.past ++ [h.present],
       ⟨h.present.cleanedData ++ [(h.present.removedRows.get ⟨i, hi⟩).originalRow],
        h.present.removedRows.eraseIdx i⟩,
       []⟩ ∧
    handleRedo (handleRestoreRow h (h.present.removedRows.get ⟨i, hi⟩) (i : Int)) =
      handleRestoreRow h (h.present.removedRows.get ⟨i, hi⟩) (i : Int) := by
  refine ⟨?_, rfl⟩
  unfold handleRestoreRow
  rw [filterIdxNe_natCast_eraseIdx _ _ hi]

/-- C1 witness: the restore of `exHist`'s only removed row, at index 0. -/
theorem restore_row_spec_witness :
    0 < exHist.present.removedRows.length ∧
    (handleRestoreRow exHist (exHist.present.removedRows.get ⟨0, by decide⟩)
        ((0 : Nat) : Int) =
      ⟨exHist.past ++ [exHist.present],
       ⟨exHist.present.cleanedData ++
          [(exHist.present.removedRows.get ⟨0, by decide⟩).originalRow],
        exHist.present.removedRows.eraseIdx 0⟩,
       []⟩ ∧
     handleRedo (handleRestoreRow exHist
         (exHist.present.removedRows.get ⟨0, by decide⟩) ((0 : Nat) : Int)) =
       handleRestoreRow exHist (exHist.present.removedRows.get ⟨0, by decide⟩)
         ((0 : Nat) : Int)) :=
  ⟨by decide, restore_row_spec exHist 0 (by decide)⟩

/-- C2 counterexample: on the history with empty `past` and non-empty
`future`, undo is a no-op but redo then moves `present`, so undo
followed by redo does not restore the present for every history
state. -/
theorem undo_redo_counterexample :
    (handleRedo (handleUndo ⟨[], exState0, [exState1]⟩)).present ≠
      (⟨[], exState0, [exState1]⟩ : DataHistory).present := by
  decide

/-- C2 amended: whenever `past` is non-empty (the undo actually pops a
state) — or `future` is empty, so both calls are no-ops — undo followed
by redo with no intervening edit restores exactly the previous history
triple: same present, same past, same future. -/
theorem undo_redo_identity (h : DataHistory)
    (hcond : h.past ≠ [] ∨ h.future = []) :
    handleRedo (handleUndo h) = h := by
  obtain ⟨p, c, f⟩ := h
  rcases List.eq_nil_or_concat p with rfl | ⟨q, x, hq⟩
  · simp only at hcond
    have hf : f = [] := by
      rcases hcond with hp | hf
      · exact absurd rfl hp
      · exact hf
    subst hf
    rfl
  · subst hq
    rw [List.concat_eq_append, handleUndo_concat, handleRedo_cons]

/-- C2 witness: undo then redo on a history with one past entry. -/
theorem undo_redo_identity_witness :
    ((⟨[exInit], exState1, []⟩ : DataHistory).past ≠ [] ∨
      (⟨[exInit], exState1, []⟩ : DataHistory).future = []) ∧
    handleRedo (handleUndo ⟨[exInit], exState1, []⟩) =
      ⟨[exInit], exState1, []⟩ :=
  ⟨Or.inl (by decide), undo_redo_identity _ (Or.inl (by decide))⟩

/-- C3: starting from the initialized history, after any sequence of
restore edits (each with an index within the current `removedRows`
bounds), undos and redos, the present's `cleanedData` and `removedRows`
lengths still sum to the row count fixed at initialization. -/
theorem conservation_law (s : CleaningState) (ops : List EditOp)
    (hv : validOps (initializeHistory s) ops = true) :
    totalRows (applyOps (initializeHistory s) ops).present = totalRows s := by
  have hI : histInv (totalRows s) (initializeHistory s) :=
    ⟨by simp [initializeHistory], rfl, by simp [initializeHistory]⟩
  exact (histInv_applyOps ops _ hI hv).2.1

/-- C3 witness: a concrete restore/undo/redo/undo run over `exInit`. -/
theorem conservation_law_witness :
    validOps (initializeHistory exInit) exOps = true ∧
    totalRows (applyOps (initializeHistory exInit) exOps).present =
      totalRows exInit :=
  ⟨by decide, conservation_law exInit exOps (by decide)⟩

/-- C4 counterexample: restoring with index 0 while `removedRows` is
empty (an out-of-range index) is not a no-op — the history changes. -/
theorem restore_oob_counterexample :
    (initializeHistory exState0).present.removedRows.length ≤ 0 ∧
    handleRestoreRow (initializeHistory exState0) exRemoved 0 ≠
      initializeHistory exState0 := by
  decide

/-- C4 amended: an out-of-range restore index (negative or at least the
length of `removedRows`) raises no error and leaves `removedRows`
unchanged, but the operation is not a no-op: the supplied row's
`originalRow` is still appended to `cleanedData`, the old present is
pushed onto `past`, and `future` is cleared. -/
theorem restore_oob_behavior (h : DataHistory) (r : RemovedRow) (idx : Int)
    (hoob : idx < 0 ∨ (h.present.removedRows.length : Int) ≤ idx) :
    handleRestoreRow h r idx =
      ⟨h.past ++ [h.present],
       ⟨h.present.cleanedData ++ [r.originalRow], h.present.removedRows⟩,
       []⟩ := by
  unfold handleRestoreRow
  rw [filterIdxNe_of_out_of_range _ _ hoob]

/-- C4 witness: a restore at index -1. -/
theorem restore_oob_behavior_witness :
    ((-1 : Int) < 0 ∨
      ((initializeHistory exState1).present.removedRows.length : Int) ≤ -1) ∧
    handleRestoreRow (initializeHistory exState1) exRemoved (-1) =
      ⟨(initializeHistory exState1).past ++ [(initializeHistory exState1).present],
       ⟨(initializeHistory exState1).present.cleanedData ++ [exRemoved.originalRow],
        (initializeHistory exState1).present.removedRows⟩,
       []⟩ :=
  ⟨Or.inl (by decide), restore_oob_behavior _ _ _ (Or.inl (by decide))⟩

/-- C5: the filtered view is exactly the rows of the base dataset
retained by the spec's predicate (for every column with a non-empty
selection, the row's value is a member of the selection; absent or
empty selections impose no constraint), and when every selection is
empty the filtered view is the base dataset itself. -/
theorem filtered_view_spec (F : Filters) (D : List DataRecord) :
    applyFilters F D = D.filter (specRowMatches F) ∧
    ((∀ c ∈ F.map Prod.fst, getFilter F c = []) → applyFilters F D = D) := by
  constructor
  · rw [applyFilters_eq_filter]
    congr 1
    funext row
    exact rowMatches_eq_specRowMatches F row
  · intro hall
    have hact : activeFilters F = [] := by
      rw [activeFilters, List.filter_eq_nil_iff]
      intro k hk
      simp [hall k hk]
    simp [applyFilters, hact]

/-- C5 witness: a selection mapping with one all-empty entry leaves a
one-row dataset unchanged. -/
theorem filtered_view_spec_witness :
    (∀ c ∈ exFilterEmpty.map Prod.fst, getFilter exFilterEmpty c = []) ∧
    applyFilters exFilterEmpty [exRowA] = [exRowA] :=
  ⟨by decide, (filtered_view_spec exFilterEmpty [exRowA]).2 (by decide)⟩

/-- C6: a column is offered as a filter iff its value in the first
record is a string and the number of distinct values of the column
across the dataset is strictly greater than 1 and at most 50. -/
theorem categorical_columns_iff (first : DataRecord) (rest : List DataRecord)
    (col : String) :
    col ∈ categoricalColumns (first :: rest) ↔
      (∃ s, getV first col = some (Scalar.str s)) ∧
      1 < (distinctVals (first :: rest) col).length ∧
      (distinctVals (first :: rest) col).length ≤ 50 := by
  simp only [categoricalColumns]
  rw [List.mem_filter]
  constructor
  · rintro ⟨hmem, hpred⟩
    simp only [Bool.and_eq_true, decide_eq_true_eq] at hpred
    obtain ⟨⟨hstr, h1⟩, h50⟩ := hpred
    refine ⟨?_, h1, h50⟩
    cases hv : getV first col with
    | none => rw [hv] at hstr; simp [isStringVal] at hstr
    | some sc =>
      cases sc with
      | str s => exact ⟨s, rfl⟩
      | num n => rw [hv] at hstr; simp [isStringVal] at hstr
  · rintro ⟨⟨s, hs⟩, h1, h50⟩
    refine ⟨?_, ?_⟩
    · exact mem_keys_of_lookup_eq_some (show List.lookup col first = _ from hs)
    · simp only [Bool.and_eq_true, decide_eq_true_eq]
      exact ⟨⟨by simp [hs, isStringVal], h1⟩, h50⟩

/-- C7 counterexample: in `mixData` the column `c` is filterable, yet
its offered value domain lists the number 10 before the number 2
although 2 < 10 — the domain is not in numeric order for numbers (the
default sort compares string representations). -/
theorem unique_values_counterexample :
    "c" ∈ categoricalColumns mixData ∧
    uniqueFilterValues mixData "c" =
      [some (Scalar.num 10), some (Scalar.num 2), some (Scalar.str "a")] ∧
    (2 : Int) < 10 := by
  decide

/-- C7 amended: for each column, the offered value domain has no
duplicates, contains exactly the values of the column occurring
anywhere in the dataset, and is sorted ascending under the JavaScript
default sort order — comparison of string representations (lexical for
strings; numbers by their decimal string form, not numerically), with
missing values last. -/
theorem unique_values_sorted (D : List DataRecord) (col : String) :
    (uniqueFilterValues D col).Nodup ∧
    (∀ v : Value, v ∈ uniqueFilterValues D col ↔ v ∈ columnValues D col) ∧
    (uniqueFilterValues D col).Pairwise jsSortRel := by
  have hperm : (uniqueFilterValues D col).Perm (distinctVals D col) :=
    List.perm_insertionSort _ _
  refine ⟨?_, ?_, ?_⟩
  · exact hperm.nodup_iff.mpr (nodup_jsSetDedup _)
  · intro v
    rw [hperm.mem_iff]
    exact mem_jsSetDedup
  · haveI : IsTrans Value jsSortRel := ⟨jsSortLe_trans⟩
    haveI : IsTotal Value jsSortRel := ⟨jsSortLe_total⟩
    exact List.sorted_insertionSort jsSortRel _

/-- C8: the displayed page is the ten-row slice of the filtered view
starting at `page * 10` clamped to the bounds, `pageCount` is the
ceiling of `length / 10`, next clamps at `pageCount - 1` and previous
clamps at 0; concretely for 25 rows there are 3 pages, page 0 has 10
rows, page 2 has 5 rows, and next from page 2 stays at page 2. -/
theorem pagination_correct {α : Type} (l : List α) (p i : Nat) :
    (paginatedData l p).length = min rowsPerPage (l.length - p * rowsPerPage) ∧
    (paginatedData l p)[i]? =
      (if i < rowsPerPage then l[p * rowsPerPage + i]? else none) ∧
    l.length ≤ pageCount l * rowsPerPage ∧
    pageCount l * rowsPerPage < l.length + rowsPerPage ∧
    nextPage l p ≤ pageCount l - 1 ∧
    (p + 1 ≤ pageCount l - 1 → nextPage l p = p + 1) ∧
    prevPage 0 = 0 ∧
    prevPage (p + 1) = p ∧
    pageCount (List.range 25) = 3 ∧
    (paginatedData (List.range 25) 0).length = 10 ∧
    (paginatedData (List.range 25) 2).length = 5 ∧
    nextPage (List.range 25) 2 = 2 := by
  refine ⟨?_, ?_, ?_, ?_, ?_, ?_, rfl, ?_, by decide, by decide, by decide,
    by decide⟩
  · rw [paginatedData, jsSlice, List.length_take, List.length_drop]
    simp only [rowsPerPage]
    omega
  · rw [paginatedData, jsSlice, List.getElem?_take, List.getElem?_drop]
    have h10 : (p + 1) * rowsPerPage - p * rowsPerPage = rowsPerPage := by
      simp only [rowsPerPage]
      omega
    rw [h10]
  · rw [pageCount]
    simp only [rowsPerPage]
    omega
  · rw [pageCount]
    simp only [rowsPerPage]
    omega
  · exact Nat.min_le_left _ _
  · intro hp1
    rw [nextPage]
    omega
  · rw [prevPage]
    omega

/-- C8 witness: next from page 2 of the 25-row dataset stays at
page 2. -/
theorem pagination_correct_witness :
    nextPage (List.range 25) 2 = 2 := by
  have h := pagination_correct (List.range 25) 2 0
  exact h.2.2.2.2.2.2.2.2.2.2.2

/-- C9: undo with empty `past` and redo with empty `future` each return
the history triple unchanged — a no-op, never an error. -/
theorem undo_redo_empty_noop (h : DataHistory) :
    (h.past = [] → handleUndo h = h) ∧ (h.future = [] → handleRedo h = h) :=
  ⟨fun hp => handleUndo_of_past_nil hp, fun hf => handleRedo_of_future_nil hf⟩

/-- C9 witness: both calls on a freshly initialized history. -/
theorem undo_redo_empty_noop_witness :
    handleUndo (initializeHistory exInit) = initializeHistory exInit ∧
    handleRedo (initializeHistory exInit) = initializeHistory exInit :=
  ⟨(undo_redo_empty_noop _).1 rfl, (undo_redo_empty_noop _).2 rfl⟩

/-- C10: for every filter selection the filtered view is an
order-preserving subsequence of the base dataset, and each row occurs
in it exactly as often as in the base dataset when it matches the
active selections, never otherwise. -/
theorem filtered_view_subsequence (F : Filters) (D : List DataRecord) :
    (applyFilters F D).Sublist D ∧
    ∀ r : DataRecord, (applyFilters F D).count r =
      (if rowMatches F r then D.count r else 0) := by
  rw [applyFilters_eq_filter]
  refine ⟨List.filter_sublist D, ?_⟩
  intro r
  split
  · rename_i hr
    exact List.count_filter hr
  · rename_i hr
    rw [List.count_eq_zero]
    intro hmem
    exact hr (List.mem_filter.mp hmem).2
